import Mathlib

/-!
# Verification of the chunked N-dimensional array storage engine

The repository's `examples/simple.py` exercises a chunked array storage
engine with a pluggable codec pipeline (Zarr-style): a store maps chunk
coordinates to codec-encoded byte buffers, and slice reads/writes are
resolved chunk by chunk.  The engine itself (chunk grid, codec pipeline,
store, array engine) is not part of the sources, so it is modelled here
from the specification and the example's observable behaviour.

Elements are natural numbers (the example uses `uint8`, so valid elements
are `< 256`); an N-dimensional index is a `List Nat`; buffers are flat
row-major `List Nat`.
-/

namespace ZarrModel

/-- Product of a list of dimension extents. -/
def prodL : List Nat → Nat
  | [] => 1
  | d :: ds => d * prodL ds

/-- All index vectors of a rectangular index space with the given extents,
in row-major order (outermost dimension varies slowest). -/
def allIdx : List Nat → List (List Nat)
  | [] => [[]]
  | d :: ds => (List.range d).flatMap fun i => (allIdx ds).map (i :: ·)

/-- Row-major linearization of an index vector. -/
def linIdx : List Nat → List Nat → Nat
  | _ :: ds, i :: is => i * prodL ds + linIdx ds is
  | _, _ => 0

/-- `validIdxB dims ix` holds when `ix` is a componentwise valid index into
an index space with extents `dims` (same rank, each component in range). -/
def validIdxB : List Nat → List Nat → Bool
  | [], [] => true
  | d :: ds, i :: is => decide (i < d) && validIdxB ds is
  | _, _ => false

/-- Total list element access with a default. -/
def nthD (l : List Nat) (n d : Nat) : Nat := (l[n]?).getD d

theorem length_allIdx (dims : List Nat) : (allIdx dims).length = prodL dims := by
  induction dims with
  | nil => rfl
  | cons d ds ih =>
    have aux : ∀ xs : List Nat,
        (xs.flatMap fun i => (allIdx ds).map (i :: ·)).length = xs.length * prodL ds := by
      intro xs
      induction xs with
      | nil => simp
      | cons x xs ih2 => simp [List.flatMap_cons, ih2, ih, Nat.succ_mul, Nat.add_comm]
    show ((List.range d).flatMap fun i => (allIdx ds).map (i :: ·)).length = d * prodL ds
    rw [aux]; simp

theorem mem_allIdx_valid {dims : List Nat} {ix : List Nat}
    (h : ix ∈ allIdx dims) : validIdxB dims ix = true := by
  induction dims generalizing ix with
  | nil => simp [allIdx] at h; simp [h, validIdxB]
  | cons d ds ih =>
    simp only [allIdx, List.mem_flatMap, List.mem_map, List.mem_range] at h
    obtain ⟨i, hi, is, his, heq⟩ := h
    subst heq
    simp [validIdxB, hi, ih his]

theorem valid_mem_allIdx {dims : List Nat} {ix : List Nat}
    (h : validIdxB dims ix = true) : ix ∈ allIdx dims := by
  induction dims generalizing ix with
  | nil =>
    cases ix with
    | nil => simp [allIdx]
    | cons i is => simp [validIdxB] at h
  | cons d ds ih =>
    cases ix with
    | nil => simp [validIdxB] at h
    | cons i is =>
      simp only [validIdxB, Bool.and_eq_true, decide_eq_true_eq] at h
      simp only [allIdx, List.mem_flatMap, List.mem_map, List.mem_range]
      exact ⟨i, h.1, is, ih h.2, rfl⟩

theorem linIdx_lt {dims ix : List Nat} (h : validIdxB dims ix = true) :
    linIdx dims ix < prodL dims := by
  induction dims generalizing ix with
  | nil =>
    cases ix with
    | nil => simp [linIdx, prodL]
    | cons i is => simp [validIdxB] at h
  | cons d ds ih =>
    cases ix with
    | nil => simp [validIdxB] at h
    | cons i is =>
      simp only [validIdxB, Bool.and_eq_true, decide_eq_true_eq] at h
      have h2 := ih h.2
      calc i * prodL ds + linIdx ds is < i * prodL ds + prodL ds := by omega
        _ = (i + 1) * prodL ds := by ring
        _ ≤ d * prodL ds := Nat.mul_le_mul_right _ h.1
        _ = prodL (d :: ds) := rfl

/-- Helper: indexing into a `flatMap` whose pieces all have length `L`. -/
theorem getElem?_flatMap_uniform {α β : Type} (xs : List α) (g : α → List β) (L : Nat)
    (hL : ∀ x ∈ xs, (g x).length = L) (i k : Nat) (hi : i < xs.length) (hk : k < L) :
    (xs.flatMap g)[i * L + k]? = (g (xs.get ⟨i, hi⟩))[k]? := by
  induction xs generalizing i with
  | nil => simp at hi
  | cons x xs ih =>
    have hx : (g x).length = L := hL x (by simp)
    cases i with
    | zero =>
      simp only [List.flatMap_cons, Nat.zero_mul, Nat.zero_add]
      rw [List.getElem?_append_left (by omega)]
      rfl
    | succ i =>
      simp only [List.flatMap_cons]
      have hge : (g x).length ≤ (i + 1) * L + k := by
        have h1 : L ≤ (i + 1) * L := Nat.le_mul_of_pos_left L (Nat.succ_pos i)
        omega
      rw [List.getElem?_append_right hge]
      have harith : (i + 1) * L + k - (g x).length = i * L + k := by
        rw [hx, Nat.succ_mul]; omega
      rw [harith]
      exact ih (fun y hy => hL y (by simp [hy])) i (by simpa using hi)

/-- The element of `allIdx dims` at linear position `linIdx dims ix` is `ix`. -/
theorem getElem?_allIdx {dims ix : List Nat} (h : validIdxB dims ix = true) :
    (allIdx dims)[linIdx dims ix]? = some ix := by
  induction dims generalizing ix with
  | nil =>
    cases ix with
    | nil => rfl
    | cons i is => simp [validIdxB] at h
  | cons d ds ih =>
    cases ix with
    | nil => simp [validIdxB] at h
    | cons i is =>
      simp only [validIdxB, Bool.and_eq_true, decide_eq_true_eq] at h
      have hlen : ∀ x ∈ List.range d, ((allIdx ds).map (x :: ·)).length = prodL ds := by
        intro x _; simp [length_allIdx]
      have hi : i < (List.range d).length := by simpa using h.1
      have hmain := getElem?_flatMap_uniform (List.range d)
        (fun x => (allIdx ds).map (x :: ·)) (prodL ds) hlen i (linIdx ds is) hi (linIdx_lt h.2)
      show ((List.range d).flatMap fun x => (allIdx ds).map (x :: ·))[i * prodL ds + linIdx ds is]?
        = some (i :: is)
      rw [hmain]
      have hr : (List.range d).get ⟨i, hi⟩ = i := by simp
      rw [hr, List.getElem?_map, ih h.2]
      rfl

/-- Reading back through a `map` over `allIdx`: applying a per-index function
and reading at the index's row-major position recovers the function value. -/
theorem nthD_map_allIdx {dims ix : List Nat} (f : List Nat → Nat) (dflt : Nat)
    (h : validIdxB dims ix = true) :
    nthD ((allIdx dims).map f) (linIdx dims ix) dflt = f ix := by
  have h1 := getElem?_allIdx h
  simp [nthD, List.getElem?_map, h1]

/-! ## Codecs and the codec pipeline -/

/-- Modelled from the spec: the engine's compression codec (`BloscCodec` in
the example) is a reversible byte-to-byte transform; it is modelled as
run-length encoding.  A run of up to 255 equal bytes becomes `count :: value`. -/
def rleEncAux : Nat → Nat → List Nat → List Nat
  | v, n, [] => [n, v]
  | v, n, x :: xs =>
      if x = v ∧ n < 255 then rleEncAux v (n + 1) xs else n :: v :: rleEncAux x 1 xs

def rleEncode : List Nat → List Nat
  | [] => []
  | x :: xs => rleEncAux x 1 xs

def rleDecode : List Nat → List Nat
  | n :: v :: rest => List.replicate n v ++ rleDecode rest
  | _ => []

theorem rleDecode_rleEncAux (v n : Nat) (xs : List Nat) :
    rleDecode (rleEncAux v n xs) = List.replicate n v ++ xs := by
  induction xs generalizing v n with
  | nil => simp [rleEncAux, rleDecode]
  | cons x xs ih =>
    by_cases hc : x = v ∧ n < 255
    · rw [rleEncAux, if_pos hc, ih]
      obtain ⟨rfl, -⟩ := hc
      rw [List.replicate_succ', List.append_assoc]
      rfl
    · rw [rleEncAux, if_neg hc, rleDecode, ih]
      simp

theorem rleDecode_rleEncode (xs : List Nat) : rleDecode (rleEncode xs) = xs := by
  cases xs with
  | nil => rfl
  | cons x xs => rw [rleEncode, rleDecode_rleEncAux]; simp

/-- A codec: a reversible transform on byte buffers. -/
structure Codec where
  enc : List Nat → List Nat
  dec : List Nat → List Nat

/-- Modelled from the spec: `BytesCodec` serializes fixed-width elements to
bytes; for the example's 8-bit unsigned elements this is the identity. -/
def bytesCodec : Codec := ⟨id, id⟩

/-- Modelled from the spec: `BloscCodec`, the compression codec. -/
def bloscCodec : Codec := ⟨rleEncode, rleDecode⟩

/-- The example's pipeline: `codecs=[BytesCodec(), BloscCodec()]`. -/
def codecPipeline : List Codec := [bytesCodec, bloscCodec]

/-- Modelled from the spec: pipeline encode composes the codecs in declared
order. -/
def pipeEncode (cs : List Codec) (x : List Nat) : List Nat :=
  cs.foldl (fun b c => c.enc b) x

/-- Modelled from the spec: pipeline decode composes the codec inverses in
exact reverse order. -/
def pipeDecode (cs : List Codec) (b : List Nat) : List Nat :=
  cs.foldr (fun c b => c.dec b) b

def encode (x : List Nat) : List Nat := pipeEncode codecPipeline x

def decodeRaw (b : List Nat) : List Nat := pipeDecode codecPipeline b

/-- The engine's error taxonomy, from the spec. -/
inductive EngineError where
  | InvalidMetadataError
  | OutOfBoundsError
  | CodecConfigError
  | DecodeError
  | StoreIOError
  deriving DecidableEq

/-- Modelled from the spec: `decode(bytes, expectedLength)` fails with
`DecodeError` when the stored bytes do not decode to the expected length. -/
def decode (b : List Nat) (expectedLength : Nat) : Except EngineError (List Nat) :=
  let y := decodeRaw b
  if y.length = expectedLength then .ok y else .error .DecodeError

theorem decodeRaw_encode (x : List Nat) : decodeRaw (encode x) = x := by
  show rleDecode (rleEncode x) = x
  exact rleDecode_rleEncode x

/-- A valid chunk buffer for the example's 8-bit unsigned dtype: every
element fits in a byte. -/
def validBuf (x : List Nat) : Bool := x.all (· < 256)

/-! ## Data model and chunk grid -/

/-- An N-dimensional index or chunk coordinate. -/
abbrev Coord := List Nat

/-- Modelled from the spec: a hyper-rectangular region as per-dimension
`(start, size)` pairs (the step is 1, the only step the example exercises). -/
abbrev Region := List (Nat × Nat)

/-- Modelled from the spec: array metadata — shape, chunk shape, fill value
(the element data type is fixed to the example's 8-bit unsigned). -/
structure ArrayMetadata where
  shape : List Nat
  chunkShape : List Nat
  fill : Nat

/-- The metadata invariant of the spec: equal ranks, all extents positive. -/
def ArrayMetadata.validB (md : ArrayMetadata) : Bool :=
  decide (md.shape.length = md.chunkShape.length)
    && md.shape.all (0 < ·) && md.chunkShape.all (0 < ·)

/-- The chunk coordinate containing a global index (componentwise division). -/
def chunkOf : List Nat → Coord → Coord
  | k :: ks, g :: gs => g / k :: chunkOf ks gs
  | _, _ => []

/-- The chunk-local position of a global index (componentwise remainder). -/
def localOf : List Nat → Coord → Coord
  | k :: ks, g :: gs => g % k :: localOf ks gs
  | _, _ => []

/-- The global index of chunk-local position `l` inside chunk `c`. -/
def globalOf : List Nat → Coord → Coord → Coord
  | k :: ks, c :: cs, l :: ls => (c * k + l) :: globalOf ks cs ls
  | _, _, _ => []

/-- Membership of a global index in a region. -/
def inRegionB : Region → Coord → Bool
  | [], [] => true
  | (st, sz) :: r, g :: gs => decide (st ≤ g) && decide (g < st + sz) && inRegionB r gs
  | _, _ => false

/-- `coveredB r ks c`: the chunk-local sub-region of chunk `c` is the entire
chunk, i.e. the region covers the chunk on every dimension. -/
def coveredB : Region → List Nat → Coord → Bool
  | [], [], [] => true
  | (st, sz) :: r, k :: ks, c :: cs =>
      decide (st ≤ c * k) && decide ((c + 1) * k ≤ st + sz) && coveredB r ks cs
  | _, _, _ => false

/-- Modelled from the spec: the bounds check — every requested index must lie
in `[0, shape[d])` on every dimension (an empty dimension requests nothing). -/
def boundsOkB : List Nat → Region → Bool
  | [], [] => true
  | d :: ds, (st, sz) :: r => (decide (sz = 0) || decide (st + sz ≤ d)) && boundsOkB ds r
  | _, _ => false

/-- The chunk indices along one dimension that a `(start, size)` interval
intersects, for chunk extent `k`. -/
def chunkRange (k st sz : Nat) : List Nat :=
  if sz = 0 then [] else List.range' (st / k) ((st + sz - 1) / k + 1 - st / k)

/-- Modelled from the spec: the Chunk Grid — all chunk coordinates
intersecting a region, in row-major order. -/
def chunksOf : List Nat → Region → List Coord
  | [], [] => [[]]
  | k :: ks, (st, sz) :: r => (chunkRange k st sz).flatMap fun c => (chunksOf ks r).map (c :: ·)
  | _, _ => []

/-- Per-dimension starts of a region. -/
def startsOf (r : Region) : Coord := r.map (·.1)

/-- Per-dimension sizes of a region. -/
def sizesOf (r : Region) : Coord := r.map (·.2)

/-- Region-local (output-buffer) coordinate of a global index. -/
def offsetIn : Region → Coord → Coord
  | (st, _) :: r, g :: gs => (g - st) :: offsetIn r gs
  | _, _ => []

/-- Global index of a region-local (output-buffer) coordinate. -/
def addOffset : Region → Coord → Coord
  | (st, _) :: r, o :: os => (st + o) :: addOffset r os
  | _, _ => []

/-! ## Store -/

/-- Modelled from the spec: the byte-addressable key-value store, keyed by
chunk coordinate (the spec's string key `c/<i0>.<i1>...` is injective in the
coordinate, so coordinates serve as keys); `none` is the absent signal. -/
abbrev Store := Coord → Option (List Nat)

/-- `get` returns the stored bytes, or the absent signal `none` (not an
error) when the key was never written. -/
def Store.get (s : Store) (k : Coord) : Option (List Nat) := s k

/-- `put` atomically replaces the value at one key. -/
def Store.put (s : Store) (k : Coord) (v : List Nat) : Store :=
  fun q => if q = k then some v else s q

/-- A fresh store: every key absent. -/
def emptyStore : Store := fun _ => none

/-! ## Array engine -/

/-- Number of elements of one chunk. -/
def chunkLen (md : ArrayMetadata) : Nat := prodL md.chunkShape

/-- Modelled from the spec: the decoded view of one chunk — the decode of the
stored bytes if present, an all-fill-value buffer if the chunk is absent. -/
def chunkView (md : ArrayMetadata) (s : Store) (c : Coord) : List Nat :=
  match Store.get s c with
  | none => List.replicate (chunkLen md) md.fill
  | some b => decodeRaw b

/-- The logical array element at global index `g`: the containing chunk's
decoded buffer at the chunk-local row-major position. -/
def readElem (md : ArrayMetadata) (s : Store) (g : Coord) : Nat :=
  nthD (chunkView md s (chunkOf md.chunkShape g))
    (linIdx md.chunkShape (localOf md.chunkShape g)) md.fill

/-- The stored bytes of a chunk decode to the chunk length (vacuous for an
absent chunk); its failure is the spec's `DecodeError`. -/
def chunkOkB (md : ArrayMetadata) (s : Store) (c : Coord) : Bool :=
  match Store.get s c with
  | none => true
  | some b => decide ((decodeRaw b).length = chunkLen md)

/-- Modelled from the spec: `readSlice` — bounds check, then for each
intersecting chunk fetch/decode (fill value where absent) and merge the
chunk-local data into the row-major output buffer. -/
def readSlice (md : ArrayMetadata) (s : Store) (r : Region) :
    Except EngineError (List Nat) :=
  if boundsOkB md.shape r then
    if (chunksOf md.chunkShape r).all (chunkOkB md s) then
      .ok ((allIdx (sizesOf r)).map fun o => readElem md s (addOffset r o))
    else .error .DecodeError
  else .error .OutOfBoundsError

/-- Fresh chunk buffer built directly from the element source, without
reading the store (the full-chunk overwrite fast path). -/
def chunkFresh (md : ArrayMetadata) (f : Coord → Nat) (c : Coord) : List Nat :=
  (allIdx md.chunkShape).map fun l => f (globalOf md.chunkShape c l)

/-- Read-modify chunk buffer: the existing decoded chunk (all fill value when
absent), overwritten on the chunk-local sub-region only. -/
def chunkMerged (md : ArrayMetadata) (s : Store) (r : Region) (f : Coord → Nat)
    (c : Coord) : List Nat :=
  (allIdx md.chunkShape).map fun l =>
    if inRegionB r (globalOf md.chunkShape c l) then f (globalOf md.chunkShape c l)
    else readElem md s (globalOf md.chunkShape c l)

/-- The chunk buffer a write produces: the fast path when the region covers
the whole chunk, read-modify-write otherwise. -/
def chunkNewBuf (md : ArrayMetadata) (s : Store) (r : Region) (f : Coord → Nat)
    (c : Coord) : List Nat :=
  if coveredB r md.chunkShape c then chunkFresh md f c else chunkMerged md s r f c

/-- Modelled from the spec: the write path, generic in the element source
`f` (global index → new value); `writeSlice` and `writeScalarBroadcast`
instantiate `f`.  Each intersecting chunk is encoded and put independently;
the store result is expressed pointwise. -/
def writeGen (md : ArrayMetadata) (s : Store) (r : Region) (f : Coord → Nat) :
    Except EngineError Store :=
  if boundsOkB md.shape r then
    if (chunksOf md.chunkShape r).all
        (fun c => coveredB r md.chunkShape c || chunkOkB md s c) then
      .ok fun c =>
        if c ∈ chunksOf md.chunkShape r
        then some (encode (chunkNewBuf md s r f c)) else s c
    else .error .DecodeError
  else .error .OutOfBoundsError

/-- The element source of `writeSlice`: the flat row-major input buffer read
at the region-local position of the global index. -/
def elemSource (md : ArrayMetadata) (r : Region) (data : List Nat) (g : Coord) : Nat :=
  nthD data (linIdx (sizesOf r) (offsetIn r g)) md.fill

/-- Modelled from the spec: `writeSlice(handle, region, inputBuffer)`. -/
def writeSlice (md : ArrayMetadata) (s : Store) (r : Region) (data : List Nat) :
    Except EngineError Store :=
  writeGen md s r (elemSource md r data)

/-- Modelled from the spec: `writeScalarBroadcast(handle, region, value)` —
fills every element of the region with one value, with partial-chunk merge
semantics identical to `writeSlice`. -/
def writeScalarBroadcast (md : ArrayMetadata) (s : Store) (r : Region) (v : Nat) :
    Except EngineError Store :=
  writeGen md s r fun _ => v

/-- Modelled from the spec: the hypothetical unoptimized write that performs
read-modify-write on every chunk, fully covered or not. -/
def writeGenUnopt (md : ArrayMetadata) (s : Store) (r : Region) (f : Coord → Nat) :
    Except EngineError Store :=
  if boundsOkB md.shape r then
    if (chunksOf md.chunkShape r).all (chunkOkB md s) then
      .ok fun c =>
        if c ∈ chunksOf md.chunkShape r
        then some (encode (chunkMerged md s r f c)) else s c
    else .error .DecodeError
  else .error .OutOfBoundsError

/-- The hypothetical unoptimized `writeSlice` (read-modify-write on every
chunk). -/
def writeSliceUnopt (md : ArrayMetadata) (s : Store) (r : Region) (data : List Nat) :
    Except EngineError Store :=
  writeGenUnopt md s r (elemSource md r data)

/-! ## The example program's concrete array -/

/-- The example's array: shape `(4,4)`, chunk shape `(2,2)`, 8-bit unsigned
elements, fill value 0. -/
def mdEx : ArrayMetadata := ⟨[4, 4], [2, 2], 0⟩

/-- The full-array region `[:]` of the example. -/
def fullRegion : Region := [(0, 4), (0, 4)]

/-- The written data `np.arange(16).reshape(4,4)`, row-major. -/
def data16 : List Nat := List.range 16

/-! ## Chunk-grid lemmas -/

theorem inRegionB_length {r : Region} {g : Coord} (h : inRegionB r g = true) :
    g.length = r.length := by
  induction r generalizing g with
  | nil => cases g with
    | nil => rfl
    | cons x xs => simp [inRegionB] at h
  | cons p r ih =>
    obtain ⟨st, sz⟩ := p
    cases g with
    | nil => simp [inRegionB] at h
    | cons x xs =>
      simp only [inRegionB, Bool.and_eq_true] at h
      simp [ih h.2]

theorem validIdxB_length {dims ix : List Nat} (h : validIdxB dims ix = true) :
    ix.length = dims.length := by
  induction dims generalizing ix with
  | nil => cases ix with
    | nil => rfl
    | cons x xs => simp [validIdxB] at h
  | cons d ds ih =>
    cases ix with
    | nil => simp [validIdxB] at h
    | cons x xs =>
      simp only [validIdxB, Bool.and_eq_true] at h
      simp [ih h.2]

theorem length_globalOf {ks c l : List Nat} (hc : c.length = ks.length)
    (hl : l.length = ks.length) : (globalOf ks c l).length = ks.length := by
  induction ks generalizing c l with
  | nil => cases c <;> cases l <;> simp_all [globalOf]
  | cons k ks ih =>
    cases c with
    | nil => simp at hc
    | cons c0 cs =>
      cases l with
      | nil => simp at hl
      | cons l0 ls =>
        simp only [List.length_cons, Nat.add_right_cancel_iff] at hc hl
        simp [globalOf, ih hc hl]

theorem globalOf_chunkOf_localOf {ks g : List Nat} (h : g.length = ks.length) :
    globalOf ks (chunkOf ks g) (localOf ks g) = g := by
  induction ks generalizing g with
  | nil => cases g with
    | nil => rfl
    | cons x xs => simp at h
  | cons k ks ih =>
    cases g with
    | nil => simp at h
    | cons g0 gs =>
      simp only [List.length_cons, Nat.add_right_cancel_iff] at h
      simp only [chunkOf, localOf, globalOf, ih h, List.cons.injEq, and_true]
      rw [Nat.mul_comm]
      exact Nat.div_add_mod g0 k

theorem chunkOf_globalOf {ks c l : List Nat} (hc : c.length = ks.length)
    (hl : validIdxB ks l = true) : chunkOf ks (globalOf ks c l) = c := by
  induction ks generalizing c l with
  | nil =>
    cases c with
    | nil => rfl
    | cons x xs => simp at hc
  | cons k ks ih =>
    cases c with
    | nil => simp at hc
    | cons c0 cs =>
      cases l with
      | nil => simp [validIdxB] at hl
      | cons l0 ls =>
        simp only [List.length_cons, Nat.add_right_cancel_iff] at hc
        simp only [validIdxB, Bool.and_eq_true, decide_eq_true_eq] at hl
        simp only [globalOf, chunkOf, ih hc hl.2, List.cons.injEq, and_true]
        have hk : 0 < k := Nat.pos_of_ne_zero (by intro h0; subst h0; omega)
        rw [Nat.mul_comm, Nat.mul_add_div hk, Nat.div_eq_of_lt hl.1]
        omega

theorem localOf_globalOf {ks c l : List Nat} (hc : c.length = ks.length)
    (hl : validIdxB ks l = true) : localOf ks (globalOf ks c l) = l := by
  induction ks generalizing c l with
  | nil =>
    cases c with
    | nil => cases l with
      | nil => rfl
      | cons x xs => simp [validIdxB] at hl
    | cons x xs => simp at hc
  | cons k ks ih =>
    cases c with
    | nil => simp at hc
    | cons c0 cs =>
      cases l with
      | nil => simp [validIdxB] at hl
      | cons l0 ls =>
        simp only [List.length_cons, Nat.add_right_cancel_iff] at hc
        simp only [validIdxB, Bool.and_eq_true, decide_eq_true_eq] at hl
        simp only [globalOf, localOf, ih hc hl.2, List.cons.injEq, and_true]
        rw [Nat.mul_comm, Nat.mul_add_mod, Nat.mod_eq_of_lt hl.1]

theorem validIdxB_localOf {ks g : List Nat} (h : g.length = ks.length)
    (hpos : ks.all (0 < ·) = true) : validIdxB ks (localOf ks g) = true := by
  induction ks generalizing g with
  | nil => cases g with
    | nil => rfl
    | cons x xs => simp at h
  | cons k ks ih =>
    cases g with
    | nil => simp at h
    | cons g0 gs =>
      simp only [List.length_cons, Nat.add_right_cancel_iff] at h
      simp only [List.all_cons, Bool.and_eq_true, decide_eq_true_eq] at hpos
      simp only [localOf, validIdxB, Bool.and_eq_true, decide_eq_true_eq]
      exact ⟨Nat.mod_lt _ hpos.1, ih h hpos.2⟩

theorem length_chunkOf {ks g : List Nat} (h : g.length = ks.length) :
    (chunkOf ks g).length = ks.length := by
  induction ks generalizing g with
  | nil => cases g <;> simp_all [chunkOf]
  | cons k ks ih =>
    cases g with
    | nil => simp at h
    | cons g0 gs =>
      simp only [List.length_cons, Nat.add_right_cancel_iff] at h
      simp [chunkOf, ih h]

theorem mem_chunksOf_length {ks : List Nat} {r : Region} {c : Coord}
    (h : c ∈ chunksOf ks r) : c.length = ks.length := by
  induction ks generalizing r c with
  | nil =>
    cases r with
    | nil => simp [chunksOf] at h; simp [h]
    | cons p r => simp [chunksOf] at h
  | cons k ks ih =>
    cases r with
    | nil => simp [chunksOf] at h
    | cons p r =>
      obtain ⟨st, sz⟩ := p
      simp only [chunksOf, List.mem_flatMap, List.mem_map] at h
      obtain ⟨c0, -, cs, hcs, heq⟩ := h
      subst heq
      simp [ih hcs]

theorem covered_inRegion {r : Region} {ks c l : List Nat}
    (hcov : coveredB r ks c = true) (hl : validIdxB ks l = true) :
    inRegionB r (globalOf ks c l) = true := by
  induction r generalizing ks c l with
  | nil =>
    cases ks with
    | nil =>
      cases c with
      | nil =>
        cases l with
        | nil => rfl
        | cons x xs => simp [validIdxB] at hl
      | cons x xs => simp [coveredB] at hcov
    | cons k ks =>
      cases c <;> simp [coveredB] at hcov
  | cons p r ih =>
    obtain ⟨st, sz⟩ := p
    cases ks with
    | nil => simp [coveredB] at hcov
    | cons k ks =>
      cases c with
      | nil => simp [coveredB] at hcov
      | cons c0 cs =>
        cases l with
        | nil => simp [validIdxB] at hl
        | cons l0 ls =>
          simp only [coveredB, Bool.and_eq_true, decide_eq_true_eq] at hcov
          simp only [validIdxB, Bool.and_eq_true, decide_eq_true_eq] at hl
          obtain ⟨⟨h1, h2⟩, h3⟩ := hcov
          simp only [globalOf, inRegionB, Bool.and_eq_true, decide_eq_true_eq]
          refine ⟨⟨by omega, ?_⟩, ih h3 hl.2⟩
          have : c0 * k + l0 < (c0 + 1) * k := by
            have := hl.1; rw [Nat.succ_mul]; omega
          omega

theorem chunkOf_mem_chunksOf {ks : List Nat} {r : Region} {g : Coord}
    (hg : inRegionB r g = true) (hlen : ks.length = r.length)
    (hpos : ks.all (0 < ·) = true) : chunkOf ks g ∈ chunksOf ks r := by
  induction r generalizing ks g with
  | nil =>
    cases ks with
    | nil =>
      cases g with
      | nil => simp [chunkOf, chunksOf]
      | cons x xs => simp [inRegionB] at hg
    | cons k ks => simp at hlen
  | cons p r ih =>
    obtain ⟨st, sz⟩ := p
    cases ks with
    | nil => simp at hlen
    | cons k ks =>
      cases g with
      | nil => simp [inRegionB] at hg
      | cons g0 gs =>
        simp only [inRegionB, Bool.and_eq_true, decide_eq_true_eq] at hg
        obtain ⟨⟨h1, h2⟩, h3⟩ := hg
        simp only [List.length_cons, Nat.add_right_cancel_iff] at hlen
        simp only [List.all_cons, Bool.and_eq_true, decide_eq_true_eq] at hpos
        simp only [chunkOf, chunksOf, List.mem_flatMap, List.mem_map]
        refine ⟨g0 / k, ?_, chunkOf ks gs, ih h3 hlen hpos.2, rfl⟩
        have hsz : sz ≠ 0 := by omega
        rw [chunkRange, if_neg hsz]
        rw [List.mem_range'_1]
        constructor
        · exact Nat.div_le_div_right h1
        · have hle : g0 / k ≤ (st + sz - 1) / k := Nat.div_le_div_right (by omega)
          have hge : st / k ≤ (st + sz - 1) / k := Nat.div_le_div_right (by omega)
          omega

/-! ## Write-path lemmas -/

theorem writeGen_ok_inv {md : ArrayMetadata} {s : Store} {r : Region}
    {f : Coord → Nat} {s1 : Store} (h : writeGen md s r f = .ok s1) :
    boundsOkB md.shape r = true ∧
    (chunksOf md.chunkShape r).all
      (fun c => coveredB r md.chunkShape c || chunkOkB md s c) = true ∧
    ∀ c, s1 c = if c ∈ chunksOf md.chunkShape r
      then some (encode (chunkNewBuf md s r f c)) else s c := by
  by_cases h1 : boundsOkB md.shape r = true
  · by_cases h2 : (chunksOf md.chunkShape r).all
        (fun c => coveredB r md.chunkShape c || chunkOkB md s c) = true
    · rw [writeGen, if_pos h1, if_pos h2] at h
      refine ⟨h1, h2, ?_⟩
      have := Except.ok.inj h
      intro c
      rw [← this]
    · rw [writeGen, if_pos h1, if_neg h2] at h
      cases h
  · rw [writeGen, if_neg h1] at h
    cases h

theorem length_chunkMerged (md : ArrayMetadata) (s : Store) (r : Region)
    (f : Coord → Nat) (c : Coord) :
    (chunkMerged md s r f c).length = chunkLen md := by
  rw [chunkMerged, List.length_map, length_allIdx]; rfl

theorem length_chunkFresh (md : ArrayMetadata) (f : Coord → Nat) (c : Coord) :
    (chunkFresh md f c).length = chunkLen md := by
  rw [chunkFresh, List.length_map, length_allIdx]; rfl

theorem length_chunkNewBuf (md : ArrayMetadata) (s : Store) (r : Region)
    (f : Coord → Nat) (c : Coord) :
    (chunkNewBuf md s r f c).length = chunkLen md := by
  rw [chunkNewBuf]
  by_cases hcov : coveredB r md.chunkShape c = true
  · rw [if_pos hcov, length_chunkFresh]
  · rw [if_neg hcov, length_chunkMerged]

/-- Frame lemma: a write through `writeGen` leaves the logical value of every
global index outside the written region unchanged. -/
theorem readElem_writeGen_frame {md : ArrayMetadata} {s s1 : Store} {r : Region}
    {f : Coord → Nat} {g : Coord}
    (hw : writeGen md s r f = .ok s1)
    (hpos : md.chunkShape.all (0 < ·) = true)
    (hlen : g.length = md.chunkShape.length)
    (hg : inRegionB r g = false) :
    readElem md s1 g = readElem md s g := by
  obtain ⟨-, -, hs1⟩ := writeGen_ok_inv hw
  have hs1c := hs1 (chunkOf md.chunkShape g)
  by_cases hm : chunkOf md.chunkShape g ∈ chunksOf md.chunkShape r
  · rw [if_pos hm] at hs1c
    have hlv : validIdxB md.chunkShape (localOf md.chunkShape g) = true :=
      validIdxB_localOf hlen hpos
    simp only [readElem, chunkView, Store.get, hs1c, decodeRaw_encode]
    rw [chunkNewBuf]
    by_cases hcov : coveredB r md.chunkShape (chunkOf md.chunkShape g) = true
    · exfalso
      have hin := covered_inRegion hcov hlv
      rw [globalOf_chunkOf_localOf hlen] at hin
      rw [hin] at hg
      cases hg
    · rw [if_neg hcov, chunkMerged]
      rw [nthD_map_allIdx _ _ hlv]
      simp only [globalOf_chunkOf_localOf hlen, hg]
      simp [readElem, chunkView, Store.get]
  · rw [if_neg hm] at hs1c
    simp only [readElem, chunkView, Store.get, hs1c]

/-! ## Claim theorems -/

/-- C1: for the example array (shape `(4,4)`, chunks `(2,2)`, uint8, fill 0),
a full-region read before any write returns a 4×4 all-zero buffer, and after
a full-region write of 0..15 in row-major order, a full-region read returns
exactly `[[0,1,2,3],[4,5,6,7],[8,9,10,11],[12,13,14,15]]`. -/
theorem read_write_read_scenario :
    readSlice mdEx emptyStore fullRegion = .ok (List.replicate 16 0)
    ∧ (writeSlice mdEx emptyStore fullRegion data16).map
        (fun s => readSlice mdEx s fullRegion)
      = .ok (.ok [0, 1, 2, 3, 4, 5, 6, 7, 8, 9, 10, 11, 12, 13, 14, 15]) :=
  ⟨rfl, rfl⟩

/-- C2: for every valid chunk buffer `x` (all elements fit in a byte), the
codec pipeline's decode of its encode returns `x` unchanged. -/
theorem codec_pipeline_roundtrip (x : List Nat) (_hx : validBuf x = true) :
    decode (encode x) x.length = .ok x := by
  simp [decode, decodeRaw_encode]

theorem codec_pipeline_roundtrip_witness :
    validBuf [7, 7, 7, 0, 255] = true
    ∧ decode (encode [7, 7, 7, 0, 255]) 5 = .ok [7, 7, 7, 0, 255] :=
  ⟨rfl, codec_pipeline_roundtrip [7, 7, 7, 0, 255] rfl⟩

/-- On a fully covered chunk, the fast-path fresh buffer coincides with the
read-modify-write merged buffer. -/
theorem chunkFresh_eq_merged {md : ArrayMetadata} {s : Store} {r : Region}
    {f : Coord → Nat} {c : Coord} (hcov : coveredB r md.chunkShape c = true) :
    chunkFresh md f c = chunkMerged md s r f c := by
  rw [chunkFresh, chunkMerged]
  apply List.map_congr_left
  intro l hl
  simp only [covered_inRegion hcov (mem_allIdx_valid hl), if_true]

/-- C3: whenever both are defined, the optimized `writeSlice` (with the
full-chunk-overwrite fast path) produces byte-for-byte the same store as the
unoptimized read-modify-write over the same chunks. -/
theorem fastPath_eq_rmw (md : ArrayMetadata) (s : Store) (r : Region)
    (data : List Nat) (hb : boundsOkB md.shape r = true)
    (hok : (chunksOf md.chunkShape r).all (chunkOkB md s) = true) :
    ∃ s1 s2, writeSlice md s r data = .ok s1 ∧ writeSliceUnopt md s r data = .ok s2
      ∧ ∀ k, s1 k = s2 k := by
  have hok2 : (chunksOf md.chunkShape r).all
      (fun c => coveredB r md.chunkShape c || chunkOkB md s c) = true := by
    rw [List.all_eq_true] at hok ⊢
    intro c hc
    rw [hok c hc, Bool.or_true]
  refine ⟨fun c => if c ∈ chunksOf md.chunkShape r
      then some (encode (chunkNewBuf md s r (elemSource md r data) c)) else s c,
    fun c => if c ∈ chunksOf md.chunkShape r
      then some (encode (chunkMerged md s r (elemSource md r data) c)) else s c,
    ?_, ?_, ?_⟩
  · rw [writeSlice, writeGen, if_pos hb, if_pos hok2]
  · rw [writeSliceUnopt, writeGenUnopt, if_pos hb, if_pos hok]
  · intro k
    beta_reduce
    by_cases hm : k ∈ chunksOf md.chunkShape r
    · rw [if_pos hm, if_pos hm]
      rw [chunkNewBuf]
      by_cases hcov : coveredB r md.chunkShape k = true
      · rw [if_pos hcov, chunkFresh_eq_merged hcov]
      · rw [if_neg hcov]
    · rw [if_neg hm, if_neg hm]

theorem fastPath_eq_rmw_witness :
    (∃ s1 s2, writeSlice mdEx emptyStore fullRegion data16 = .ok s1
      ∧ writeSliceUnopt mdEx emptyStore fullRegion data16 = .ok s2
      ∧ ∀ k, s1 k = s2 k) :=
  fastPath_eq_rmw mdEx emptyStore fullRegion data16 rfl rfl

/-- C4: a write (`writeSlice` or `writeScalarBroadcast`) to a sub-region
leaves every element outside that sub-region with its previous value; and
the concrete scenario — broadcasting 42 over row 0 of the example array
after the 0..15 write — reads back row 0 as 42s with all other rows
unchanged. -/
theorem write_preserves_outside_subregion :
    (∀ (md : ArrayMetadata) (s s1 : Store) (r : Region) (data : List Nat) (g : Coord),
        writeSlice md s r data = .ok s1 →
        md.chunkShape.all (0 < ·) = true →
        g.length = md.chunkShape.length →
        inRegionB r g = false →
        readElem md s1 g = readElem md s g)
    ∧ (∀ (md : ArrayMetadata) (s s1 : Store) (r : Region) (v : Nat) (g : Coord),
        writeScalarBroadcast md s r v = .ok s1 →
        md.chunkShape.all (0 < ·) = true →
        g.length = md.chunkShape.length →
        inRegionB r g = false →
        readElem md s1 g = readElem md s g)
    ∧ (writeSlice mdEx emptyStore fullRegion data16).bind
        (fun s1 => (writeScalarBroadcast mdEx s1 [(0, 1), (0, 4)] 42).map
          (fun s2 => readSlice mdEx s2 fullRegion))
      = .ok (.ok [42, 42, 42, 42, 4, 5, 6, 7, 8, 9, 10, 11, 12, 13, 14, 15]) := by
  refine ⟨?_, ?_, rfl⟩
  · intro md s s1 r data g hw hpos hlen hg
    exact readElem_writeGen_frame hw hpos hlen hg
  · intro md s s1 r v g hw hpos hlen hg
    exact readElem_writeGen_frame hw hpos hlen hg

theorem write_preserves_outside_subregion_witness :
    ∃ s1, writeSlice mdEx emptyStore [(0, 1), (0, 4)] [9, 9, 9, 9] = .ok s1
      ∧ readElem mdEx s1 [2, 0] = readElem mdEx emptyStore [2, 0] := by
  refine ⟨_, rfl, ?_⟩
  exact write_preserves_outside_subregion.1 mdEx emptyStore _ [(0, 1), (0, 4)]
    [9, 9, 9, 9] [2, 0] rfl (by decide) (by decide) (by decide)

theorem addOffset_inRegion {r : Region} {o : Coord}
    (h : validIdxB (sizesOf r) o = true) : inRegionB r (addOffset r o) = true := by
  induction r generalizing o with
  | nil =>
    cases o with
    | nil => rfl
    | cons x xs => simp [sizesOf, validIdxB] at h
  | cons p r ih =>
    obtain ⟨st, sz⟩ := p
    cases o with
    | nil => simp [sizesOf, validIdxB] at h
    | cons o0 os =>
      simp only [sizesOf, List.map_cons, validIdxB, Bool.and_eq_true,
        decide_eq_true_eq] at h
      simp only [addOffset, inRegionB, Bool.and_eq_true, decide_eq_true_eq]
      exact ⟨⟨Nat.le_add_right st o0, by omega⟩, ih h.2⟩

theorem nthD_replicate (n a i : Nat) : nthD (List.replicate n a) i a = a := by
  rw [nthD, List.getElem?_replicate]
  by_cases h : i < n
  · rw [if_pos h]; rfl
  · rw [if_neg h]; rfl

/-- An absent chunk's decoded view is the all-fill-value buffer. -/
theorem chunkView_absent (md : ArrayMetadata) (s : Store) (c : Coord)
    (h : Store.get s c = none) :
    chunkView md s c = List.replicate (chunkLen md) md.fill := by
  simp only [chunkView, h]

/-- C5: reading a region none of whose chunks were ever written returns the
fill value for every element; a store `get` on an absent key returns the
absent signal (`none`), not an error; and an absent chunk reads as an
all-fill-value buffer. -/
theorem unwritten_reads_fill :
    (∀ (md : ArrayMetadata) (s : Store) (r : Region),
        md.validB = true → r.length = md.shape.length →
        boundsOkB md.shape r = true →
        (∀ c ∈ chunksOf md.chunkShape r, Store.get s c = none) →
        readSlice md s r = .ok (List.replicate (prodL (sizesOf r)) md.fill))
    ∧ (∀ k : Coord, Store.get emptyStore k = none)
    ∧ (∀ (md : ArrayMetadata) (s : Store) (c : Coord), Store.get s c = none →
        chunkView md s c = List.replicate (chunkLen md) md.fill) := by
  refine ⟨?_, fun _ => rfl, chunkView_absent⟩
  intro md s r hv hlen hb habs
  simp only [ArrayMetadata.validB, Bool.and_eq_true, decide_eq_true_eq] at hv
  have hks1 : md.chunkShape.length = r.length := by
    have := hv.1.1
    omega
  have hpos : md.chunkShape.all (0 < ·) = true := hv.2
  have hchk : (chunksOf md.chunkShape r).all (chunkOkB md s) = true := by
    rw [List.all_eq_true]
    intro c hc
    simp [chunkOkB, habs c hc]
  rw [readSlice, if_pos hb, if_pos hchk]
  congr 1
  have hmem2 : ∀ b ∈ (allIdx (sizesOf r)).map (fun o => readElem md s (addOffset r o)),
      b = md.fill := by
    intro b hb2
    simp only [List.mem_map] at hb2
    obtain ⟨o, ho, rfl⟩ := hb2
    have hov := mem_allIdx_valid ho
    have hin : inRegionB r (addOffset r o) = true := addOffset_inRegion hov
    have hmem : chunkOf md.chunkShape (addOffset r o) ∈ chunksOf md.chunkShape r :=
      chunkOf_mem_chunksOf hin hks1 hpos
    simp only [readElem, chunkView_absent md s _ (habs _ hmem)]
    exact nthD_replicate _ _ _
  have hrep := List.eq_replicate_of_mem hmem2
  rw [List.length_map, length_allIdx] at hrep
  exact hrep

theorem unwritten_reads_fill_witness :
    readSlice mdEx emptyStore [(1, 2), (0, 3)] = .ok (List.replicate 6 0) :=
  unwritten_reads_fill.1 mdEx emptyStore [(1, 2), (0, 3)] rfl rfl rfl (fun _ _ => rfl)

/-- Modelled from the spec: the region requests some index lying outside
`[0, shape[d])` for some dimension `d`. -/
def requestsOOB (sh : List Nat) (r : Region) : Prop :=
  ∃ d : Fin r.length, ∃ i : Nat,
    (r.get d).1 ≤ i ∧ i < (r.get d).1 + (r.get d).2 ∧ sh.getD d.val 0 ≤ i

theorem requestsOOB_cons {dd : Nat} {ds : List Nat} {st sz : Nat} {r : Region} :
    requestsOOB (dd :: ds) ((st, sz) :: r)
      ↔ (∃ i, st ≤ i ∧ i < st + sz ∧ dd ≤ i) ∨ requestsOOB ds r := by
  constructor
  · rintro ⟨d, i, h1, h2, h3⟩
    rcases Fin.eq_zero_or_eq_succ d with hd | ⟨d2, hd⟩
    · subst hd
      left
      exact ⟨i, h1, h2, h3⟩
    · subst hd
      right
      refine ⟨d2, i, ?_, ?_, ?_⟩
      · simpa using h1
      · simpa using h2
      · simpa using h3
  · rintro (⟨i, h1, h2, h3⟩ | ⟨d, i, h1, h2, h3⟩)
    · exact ⟨⟨0, by simp⟩, i, h1, h2, h3⟩
    · refine ⟨d.succ, i, ?_, ?_, ?_⟩
      · simpa using h1
      · simpa using h2
      · simpa using h3

theorem boundsOkB_iff_not_requestsOOB {sh : List Nat} {r : Region}
    (hlen : r.length = sh.length) :
    boundsOkB sh r = true ↔ ¬ requestsOOB sh r := by
  induction r generalizing sh with
  | nil =>
    cases sh with
    | nil =>
      simp only [boundsOkB, requestsOOB, true_iff]
      rintro ⟨d, -⟩
      exact absurd d.isLt (by simp)
    | cons d ds => simp at hlen
  | cons p r ih =>
    obtain ⟨st, sz⟩ := p
    cases sh with
    | nil => simp at hlen
    | cons dd ds =>
      simp only [List.length_cons, Nat.add_right_cancel_iff] at hlen
      rw [requestsOOB_cons]
      simp only [boundsOkB, Bool.and_eq_true, Bool.or_eq_true, decide_eq_true_eq]
      rw [ih hlen]
      constructor
      · rintro ⟨h1, h2⟩ (⟨i, hi1, hi2, hi3⟩ | hr)
        · rcases h1 with h1 | h1 <;> omega
        · exact h2 hr
      · intro h
        refine ⟨?_, fun hr => h (Or.inr hr)⟩
        by_contra hc
        push_neg at hc
        obtain ⟨hsz, hdd⟩ := hc
        exact h (Or.inl ⟨max st dd, Nat.le_max_left _ _, by omega, Nat.le_max_right _ _⟩)

/-- C7: `readSlice`, `writeSlice` and `writeScalarBroadcast` fail with
`OutOfBoundsError` exactly when some requested index lies outside
`[0, shape[d])` on some dimension; requests entirely inside bounds never
produce this error. -/
theorem oob_error_iff (md : ArrayMetadata) (s : Store) (r : Region)
    (data : List Nat) (v : Nat) (hlen : r.length = md.shape.length) :
    (readSlice md s r = .error .OutOfBoundsError ↔ requestsOOB md.shape r)
    ∧ (writeSlice md s r data = .error .OutOfBoundsError ↔ requestsOOB md.shape r)
    ∧ (writeScalarBroadcast md s r v = .error .OutOfBoundsError
        ↔ requestsOOB md.shape r) := by
  have hb : boundsOkB md.shape r = true ↔ ¬ requestsOOB md.shape r :=
    boundsOkB_iff_not_requestsOOB hlen
  by_cases h1 : boundsOkB md.shape r = true
  · have hno : ¬ requestsOOB md.shape r := hb.mp h1
    have hread : readSlice md s r ≠ .error .OutOfBoundsError := by
      rw [readSlice, if_pos h1]
      by_cases h2 : (chunksOf md.chunkShape r).all (chunkOkB md s) = true
      · rw [if_pos h2]
        intro hc
        simp at hc
      · rw [if_neg h2]
        intro hc
        simp at hc
    have hwrite : ∀ f, writeGen md s r f ≠ .error .OutOfBoundsError := by
      intro f
      rw [writeGen, if_pos h1]
      by_cases h2 : (chunksOf md.chunkShape r).all
          (fun c => coveredB r md.chunkShape c || chunkOkB md s c) = true
      · rw [if_pos h2]
        intro hc
        simp at hc
      · rw [if_neg h2]
        intro hc
        simp at hc
    exact ⟨iff_of_false hread hno, iff_of_false (hwrite _) hno, iff_of_false (hwrite _) hno⟩
  · have hq : requestsOOB md.shape r := by
      by_contra hq
      exact h1 (hb.mpr hq)
    have herr : ∀ f, writeGen md s r f = .error .OutOfBoundsError := by
      intro f
      rw [writeGen, if_neg h1]
    refine ⟨iff_of_true ?_ hq, iff_of_true (herr _) hq, iff_of_true (herr _) hq⟩
    rw [readSlice, if_neg h1]

theorem oob_error_iff_witness :
    readSlice mdEx emptyStore [(0, 5), (0, 4)] = .error .OutOfBoundsError
    ∧ readSlice mdEx emptyStore fullRegion ≠ .error .OutOfBoundsError := by
  constructor
  · exact (oob_error_iff mdEx emptyStore [(0, 5), (0, 4)] data16 0 rfl).1.mpr
      ⟨⟨0, by decide⟩, 4, by decide, by decide, by decide⟩
  · intro hc
    have hno : ¬ requestsOOB mdEx.shape fullRegion :=
      (boundsOkB_iff_not_requestsOOB rfl).mp rfl
    exact hno ((oob_error_iff mdEx emptyStore fullRegion data16 0 rfl).1.mp hc)

/-- C6: performing the same `writeSlice` twice with the same data leaves the
store with exactly the same stored bytes as performing it once. -/
theorem writeSlice_idempotent (md : ArrayMetadata) (s s1 : Store) (r : Region)
    (data : List Nat) (hpos : md.chunkShape.all (0 < ·) = true)
    (hw : writeSlice md s r data = .ok s1) :
    ∃ s2, writeSlice md s1 r data = .ok s2 ∧ ∀ k, s2 k = s1 k := by
  obtain ⟨hb, hok, hs1⟩ := writeGen_ok_inv hw
  have hok1 : (chunksOf md.chunkShape r).all
      (fun c => coveredB r md.chunkShape c || chunkOkB md s1 c) = true := by
    rw [List.all_eq_true]
    intro c hc
    have hsc := hs1 c
    rw [if_pos hc] at hsc
    have hokc : chunkOkB md s1 c = true := by
      simp only [chunkOkB, Store.get, hsc, decodeRaw_encode, length_chunkNewBuf]
      simp
    rw [hokc, Bool.or_true]
  refine ⟨fun c => if c ∈ chunksOf md.chunkShape r
      then some (encode (chunkNewBuf md s1 r (elemSource md r data) c)) else s1 c,
    ?_, ?_⟩
  · rw [writeSlice, writeGen, if_pos hb, if_pos hok1]
  · intro k
    beta_reduce
    by_cases hm : k ∈ chunksOf md.chunkShape r
    · rw [if_pos hm, hs1 k, if_pos hm]
      have hbuf : chunkNewBuf md s1 r (elemSource md r data) k
          = chunkNewBuf md s r (elemSource md r data) k := by
        rw [chunkNewBuf, chunkNewBuf]
        by_cases hcov : coveredB r md.chunkShape k = true
        · rw [if_pos hcov, if_pos hcov]
        · rw [if_neg hcov, if_neg hcov, chunkMerged, chunkMerged]
          apply List.map_congr_left
          intro l hl
          have hlv := mem_allIdx_valid hl
          by_cases hin : inRegionB r (globalOf md.chunkShape k l) = true
          · rw [if_pos hin, if_pos hin]
          · rw [if_neg hin, if_neg hin]
            have hglen : (globalOf md.chunkShape k l).length = md.chunkShape.length :=
              length_globalOf (mem_chunksOf_length hm) (validIdxB_length hlv)
            have hgf : inRegionB r (globalOf md.chunkShape k l) = false := by
              revert hin
              cases inRegionB r (globalOf md.chunkShape k l) <;> simp
            exact readElem_writeGen_frame hw hpos hglen hgf
      rw [hbuf]
    · rw [if_neg hm]

theorem writeSlice_idempotent_witness :
    ∃ s1, writeSlice mdEx emptyStore [(0, 1), (0, 4)] [5, 6, 7, 8] = .ok s1
      ∧ ∃ s2, writeSlice mdEx s1 [(0, 1), (0, 4)] [5, 6, 7, 8] = .ok s2
        ∧ ∀ k, s2 k = s1 k := by
  refine ⟨_, rfl, ?_⟩
  exact writeSlice_idempotent mdEx emptyStore _ [(0, 1), (0, 4)] [5, 6, 7, 8]
    (by decide) rfl

/-- The 2×2 row-major sub-block of the example's written data belonging to
each of its four chunks. -/
def blockEx (c : Coord) : List Nat :=
  if c = [0, 0] then [0, 1, 4, 5]
  else if c = [0, 1] then [2, 3, 6, 7]
  else if c = [1, 0] then [8, 9, 12, 13]
  else [10, 11, 14, 15]

/-- C9: the example's single full-array write covers each of the four chunks
entirely, so every chunk takes the fresh full-chunk path — for any prior
store, the write succeeds and stores at each chunk exactly the pipeline
encoding of that chunk's own 2×2 sub-block (no read-modify-write of any
pre-existing chunk), leaving every other key untouched; from the empty
store this leaves exactly the four chunk entries. -/
theorem single_full_write_store_entries :
    chunksOf mdEx.chunkShape fullRegion = [[0, 0], [0, 1], [1, 0], [1, 1]]
    ∧ (chunksOf mdEx.chunkShape fullRegion).all
        (coveredB fullRegion mdEx.chunkShape) = true
    ∧ (∀ s : Store, ∃ t, writeSlice mdEx s fullRegion data16 = .ok t
        ∧ ∀ c, t c = if c ∈ ([[0, 0], [0, 1], [1, 0], [1, 1]] : List Coord)
            then some (encode (blockEx c)) else Store.get s c) := by
  refine ⟨rfl, rfl, ?_⟩
  intro s
  refine ⟨_, rfl, ?_⟩
  intro c
  have hlist : chunksOf mdEx.chunkShape fullRegion = [[0, 0], [0, 1], [1, 0], [1, 1]] := rfl
  by_cases hm : c ∈ ([[0, 0], [0, 1], [1, 0], [1, 1]] : List Coord)
  · have hm2 : c ∈ chunksOf mdEx.chunkShape fullRegion := by
      rw [hlist]
      exact hm
    rw [if_pos hm2, if_pos hm]
    have hc4 : c = [0, 0] ∨ c = [0, 1] ∨ c = [1, 0] ∨ c = [1, 1] := by simpa using hm
    rcases hc4 with rfl | rfl | rfl | rfl <;> rfl
  · have hm2 : c ∉ chunksOf mdEx.chunkShape fullRegion := by
      rw [hlist]
      exact hm
    rw [if_neg hm2, if_neg hm]
    rfl

/-! ## Concurrency model: interleavings of per-chunk write steps -/

/-- A write produces the same chunk buffer on two stores that agree at that
chunk's key: the read-modify step consults the store only at the chunk's own
coordinate. -/
theorem chunkNewBuf_local {md : ArrayMetadata} {s s2 : Store} {r : Region}
    {f : Coord → Nat} {c : Coord} (hclen : c.length = md.chunkShape.length)
    (hkey : s c = s2 c) :
    chunkNewBuf md s r f c = chunkNewBuf md s2 r f c := by
  rw [chunkNewBuf, chunkNewBuf]
  by_cases hcov : coveredB r md.chunkShape c = true
  · rw [if_pos hcov, if_pos hcov]
  · rw [if_neg hcov, if_neg hcov, chunkMerged, chunkMerged]
    apply List.map_congr_left
    intro l hl
    have hlv := mem_allIdx_valid hl
    by_cases hin : inRegionB r (globalOf md.chunkShape c l) = true
    · rw [if_pos hin, if_pos hin]
    · rw [if_neg hin, if_neg hin]
      simp only [readElem, chunkView, Store.get, chunkOf_globalOf hclen hlv, hkey]

/-- The chunk coordinates targeted by call `i` of a list of write calls. -/
def callChunks (md : ArrayMetadata) (calls : List (Region × List Nat)) (i : Nat) :
    List Coord :=
  match calls[i]? with
  | some rd => chunksOf md.chunkShape rd.1
  | none => []

/-- Modelled from the spec: one atomic per-chunk unit of a concurrent
execution — call `i` reads, merges, encodes and puts chunk `c`; its get and
put at key `c` form that chunk's atomicity unit. -/
def wStep (md : ArrayMetadata) (calls : List (Region × List Nat)) (s : Store)
    (p : Nat × Coord) : Store :=
  match calls[p.1]? with
  | some rd => Store.put s p.2 (encode (chunkNewBuf md s rd.1 (elemSource md rd.1 rd.2) p.2))
  | none => s

/-- Modelled from the spec: a concurrent execution is any interleaving of
the per-chunk steps, applied to the shared store. -/
def exec (md : ArrayMetadata) (calls : List (Region × List Nat)) (s0 : Store)
    (sched : List (Nat × Coord)) : Store :=
  sched.foldl (wStep md calls) s0

/-- Every per-chunk step of every call, in program order. -/
def allSteps (md : ArrayMetadata) (calls : List (Region × List Nat)) :
    List (Nat × Coord) :=
  (List.range calls.length).flatMap fun i => (callChunks md calls i).map fun c => (i, c)

theorem exec_cons (md : ArrayMetadata) (calls : List (Region × List Nat))
    (s : Store) (p : Nat × Coord) (t : List (Nat × Coord)) :
    exec md calls s (p :: t) = exec md calls (wStep md calls s p) t := rfl

theorem mem_allSteps {md : ArrayMetadata} {calls : List (Region × List Nat)}
    {p : Nat × Coord} :
    p ∈ allSteps md calls ↔ p.1 < calls.length ∧ p.2 ∈ callChunks md calls p.1 := by
  obtain ⟨i, c⟩ := p
  rw [allSteps]
  simp only [List.mem_flatMap, List.mem_range, List.mem_map]
  constructor
  · rintro ⟨j, hj, c2, hc2, heq⟩
    injection heq with h1 h2
    subst h1
    subst h2
    exact ⟨hj, hc2⟩
  · rintro ⟨hi, hc⟩
    exact ⟨i, hi, c, hc, rfl⟩

/-- Core interleaving lemma: executing any schedule of valid per-chunk steps
with pairwise distinct chunk keys makes every scheduled chunk hold exactly
its own call's encoded buffer (computed against `s0`, the store none of the
scheduled keys have diverged from), and leaves every other key untouched. -/
theorem exec_cover {md : ArrayMetadata} {calls : List (Region × List Nat)}
    (sched : List (Nat × Coord)) (s0 : Store) :
    ∀ s : Store,
    (∀ p ∈ sched, p.2 ∈ callChunks md calls p.1) →
    (sched.map Prod.snd).Nodup →
    (∀ p ∈ sched, s p.2 = s0 p.2) →
    (∀ p ∈ sched, ∀ r d, calls[p.1]? = some (r, d) →
        exec md calls s sched p.2
          = some (encode (chunkNewBuf md s0 r (elemSource md r d) p.2)))
    ∧ ∀ c, c ∉ sched.map Prod.snd → exec md calls s sched c = s c := by
  induction sched with
  | nil =>
    intro s _ _ _
    exact ⟨fun p hp => absurd hp (List.not_mem_nil p), fun c _ => rfl⟩
  | cons p t ih =>
    intro s hval hnd hagree
    obtain ⟨i, c⟩ := p
    have hvc : c ∈ callChunks md calls i := hval (i, c) (List.mem_cons_self _ _)
    have hndc : c ∉ t.map Prod.snd ∧ (t.map Prod.snd).Nodup := by
      rw [List.map_cons, List.nodup_cons] at hnd
      exact hnd
    cases hcall : calls[i]? with
    | none =>
      simp only [callChunks, hcall] at hvc
      exact absurd hvc (List.not_mem_nil c)
    | some rd =>
      obtain ⟨r, d⟩ := rd
      simp only [callChunks, hcall] at hvc
      have hstep : wStep md calls s (i, c)
          = Store.put s c (encode (chunkNewBuf md s r (elemSource md r d) c)) := by
        simp only [wStep, hcall]
      have hkeys : s c = s0 c := hagree (i, c) (List.mem_cons_self _ _)
      have hbufeq : chunkNewBuf md s r (elemSource md r d) c
          = chunkNewBuf md s0 r (elemSource md r d) c :=
        chunkNewBuf_local (mem_chunksOf_length hvc) hkeys
      have hval2 : ∀ q ∈ t, q.2 ∈ callChunks md calls q.1 :=
        fun q hq => hval q (List.mem_cons_of_mem _ hq)
      have hagree2 : ∀ q ∈ t, wStep md calls s (i, c) q.2 = s0 q.2 := by
        intro q hq
        rw [hstep, Store.put]
        have hne : q.2 ≠ c := by
          intro hqc
          exact hndc.1 (hqc ▸ List.mem_map_of_mem Prod.snd hq)
        rw [if_neg hne]
        exact hagree q (List.mem_cons_of_mem _ hq)
      have ihx := ih (wStep md calls s (i, c)) hval2 hndc.2 hagree2
      constructor
      · intro q hq r2 d2 hq2
        rcases List.mem_cons.mp hq with heq | hqt
        · subst heq
          rw [hcall] at hq2
          cases Option.some.inj hq2
          rw [exec_cons, ihx.2 c hndc.1, hstep, Store.put, if_pos rfl, hbufeq]
        · rw [exec_cons]
          exact ihx.1 q hqt r2 d2 hq2
      · intro c2 hc2
        have hsplit : c2 ≠ c ∧ c2 ∉ t.map Prod.snd := by
          rw [List.map_cons, List.mem_cons] at hc2
          push_neg at hc2
          exact hc2
        rw [exec_cons, ihx.2 c2 hsplit.2, hstep, Store.put, if_neg hsplit.1]

theorem chunksOf_nodup (ks : List Nat) (r : Region) : (chunksOf ks r).Nodup := by
  induction ks generalizing r with
  | nil =>
    cases r with
    | nil => simp [chunksOf]
    | cons p r => simp [chunksOf]
  | cons k ks ih =>
    cases r with
    | nil => simp [chunksOf]
    | cons p r =>
      obtain ⟨st, sz⟩ := p
      show ((chunkRange k st sz).flatMap fun c => (chunksOf ks r).map (c :: ·)).Nodup
      rw [List.nodup_flatMap]
      constructor
      · intro x _
        exact List.Nodup.map (fun a b hab => by injection hab) (ih r)
      · have hnd : (chunkRange k st sz).Nodup := by
          rw [chunkRange]
          by_cases hsz : sz = 0
          · rw [if_pos hsz]
            exact List.nodup_nil
          · rw [if_neg hsz]
            exact List.nodup_range' _ _
        refine List.Pairwise.imp ?_ hnd
        intro a b hab x hx1 hx2
        simp only [List.mem_map] at hx1 hx2
        obtain ⟨y1, -, heq1⟩ := hx1
        obtain ⟨y2, -, heq2⟩ := hx2
        rw [← heq1] at heq2
        injection heq2 with h1 h2
        exact hab h1.symm

theorem allSteps_map_snd (md : ArrayMetadata) (calls : List (Region × List Nat)) :
    (allSteps md calls).map Prod.snd
      = (List.range calls.length).flatMap (callChunks md calls) := by
  rw [allSteps, List.map_flatMap]
  congr 1
  funext i
  rw [List.map_map]
  simp

theorem allSteps_snd_nodup {md : ArrayMetadata} {calls : List (Region × List Nat)}
    (hdisj : calls.Pairwise
      (fun a b => (chunksOf md.chunkShape a.1).Disjoint (chunksOf md.chunkShape b.1))) :
    ((allSteps md calls).map Prod.snd).Nodup := by
  rw [allSteps_map_snd, List.nodup_flatMap]
  constructor
  · intro i _
    cases hcall : calls[i]? with
    | none => simp [callChunks, hcall]
    | some rd =>
      simp only [callChunks, hcall]
      exact chunksOf_nodup _ _
  · rw [List.pairwise_iff_getElem]
    intro i j hi hj hij
    have hi2 : i < calls.length := by simpa using hi
    have hj2 : j < calls.length := by simpa using hj
    have hR := List.pairwise_iff_getElem.mp hdisj i j hi2 hj2 hij
    have hcali : calls[i]? = some calls[i] := List.getElem?_eq_getElem hi2
    have hcalj : calls[j]? = some calls[j] := List.getElem?_eq_getElem hj2
    simp only [List.getElem_range, Function.onFun, callChunks, hcali, hcalj]
    exact hR

/-- Modelled from the spec: the filesystem backend's state for the
write-to-temp-then-rename protocol — the visible files readers `get` from,
plus per-key temporary files invisible to readers. -/
structure FsStore where
  files : Coord → Option (List Nat)
  temps : Coord → Option (List Nat)

/-- One filesystem action: writing a key's temp file, or the atomic rename
installing it. -/
inductive FsOp where
  | writeTemp (k : Coord) (v : List Nat)
  | rename (k : Coord)

/-- Modelled from the spec: small-step filesystem semantics — a reader's
`get` consults only `files`, and the rename is the single step that changes
them (installing the complete temp contents). -/
def fsStep (fs : FsStore) : FsOp → FsStore
  | .writeTemp k v => ⟨fs.files, fun q => if q = k then some v else fs.temps q⟩
  | .rename k =>
      match fs.temps k with
      | some v => ⟨fun q => if q = k then some v else fs.files q,
          fun q => if q = k then none else fs.temps q⟩
      | none => fs

/-- C8: (i) any interleaving of the per-chunk atomic units of N `writeSlice`
calls targeting pairwise disjoint chunk coordinates leaves every targeted
chunk holding exactly its own call's encoded data — independent of the
interleaving — and every other key untouched; (ii) in the filesystem
backend's write-to-temp-then-rename protocol, a reader of a key still sees
the old value after the temp write and sees the complete new value after the
atomic rename, so no partially written file is ever observable. -/
theorem concurrent_disjoint_writes_safe :
    (∀ (md : ArrayMetadata) (calls : List (Region × List Nat)) (s0 : Store)
        (sched : List (Nat × Coord)),
        calls.Pairwise (fun a b =>
          (chunksOf md.chunkShape a.1).Disjoint (chunksOf md.chunkShape b.1)) →
        sched.Perm (allSteps md calls) →
        (∀ (i : Nat) (r : Region) (d : List Nat) (c : Coord),
            calls[i]? = some (r, d) → c ∈ chunksOf md.chunkShape r →
            exec md calls s0 sched c
              = some (encode (chunkNewBuf md s0 r (elemSource md r d) c)))
        ∧ ∀ c, (∀ i, c ∉ callChunks md calls i) → exec md calls s0 sched c = s0 c)
    ∧ (∀ (fs : FsStore) (k : Coord) (v : List Nat),
        (fsStep fs (.writeTemp k v)).files k = fs.files k
        ∧ (fsStep (fsStep fs (.writeTemp k v)) (.rename k)).files k = some v) := by
  constructor
  · intro md calls s0 sched hdisj hperm
    have hnd : (sched.map Prod.snd).Nodup :=
      ((hperm.map Prod.snd).nodup_iff).mpr (allSteps_snd_nodup hdisj)
    have hval : ∀ p ∈ sched, p.2 ∈ callChunks md calls p.1 := by
      intro p hp
      exact (mem_allSteps.mp (hperm.mem_iff.mp hp)).2
    have hcov := exec_cover sched s0 s0 hval hnd (fun _ _ => rfl)
    constructor
    · intro i r d c hcall hc
      have hstep : (i, c) ∈ sched := by
        rw [hperm.mem_iff, mem_allSteps]
        refine ⟨?_, ?_⟩
        · obtain ⟨hlt, -⟩ := List.getElem?_eq_some_iff.mp hcall
          exact hlt
        · simp only [callChunks, hcall]
          exact hc
      exact hcov.1 (i, c) hstep r d hcall
    · intro c hout
      refine hcov.2 c ?_
      intro hmem
      rw [List.mem_map] at hmem
      obtain ⟨p, hp, hpc⟩ := hmem
      have := hval p hp
      rw [hpc] at this
      exact hout p.1 this
  · intro fs k v
    constructor
    · rfl
    · simp [fsStep]

theorem concurrent_disjoint_writes_safe_witness :
    exec mdEx [([(0, 2), (0, 2)], [1, 2, 3, 4]), ([(2, 2), (2, 2)], [5, 6, 7, 8])]
        emptyStore [(1, [1, 1]), (0, [0, 0])] [0, 0]
      = some (encode (chunkNewBuf mdEx emptyStore [(0, 2), (0, 2)]
          (elemSource mdEx [(0, 2), (0, 2)] [1, 2, 3, 4]) [0, 0])) := by
  refine (concurrent_disjoint_writes_safe.1 mdEx
    [([(0, 2), (0, 2)], [1, 2, 3, 4]), ([(2, 2), (2, 2)], [5, 6, 7, 8])]
    emptyStore [(1, [1, 1]), (0, [0, 0])] ?_ ?_).1 0 _ _ [0, 0] rfl (by decide)
  · refine List.pairwise_cons.mpr ⟨?_, List.pairwise_singleton _ _⟩
    intro b hb
    rw [List.mem_singleton] at hb
    subst hb
    intro x hx1 hx2
    have e1 : chunksOf mdEx.chunkShape [(0, 2), (0, 2)] = [[0, 0]] := rfl
    have e2 : chunksOf mdEx.chunkShape [(2, 2), (2, 2)] = [[1, 1]] := rfl
    rw [e1, List.mem_singleton] at hx1
    rw [e2, List.mem_singleton] at hx2
    subst hx1
    cases hx2
  · have e3 : allSteps mdEx
        [([(0, 2), (0, 2)], [1, 2, 3, 4]), ([(2, 2), (2, 2)], [5, 6, 7, 8])]
        = [(0, [0, 0]), (1, [1, 1])] := rfl
    rw [e3]
    exact List.Perm.swap _ _ _

/-! ## Order-independence of the per-chunk read merge -/

/-- Modelled from the spec: merging one chunk's contribution into the output
buffer — the chunk overwrites exactly the output positions it owns. -/
def outMergeChunk (md : ArrayMetadata) (s : Store) (r : Region)
    (out : List Nat) (c : Coord) : List Nat :=
  (allIdx (sizesOf r)).map fun o =>
    if chunkOf md.chunkShape (addOffset r o) = c
    then readElem md s (addOffset r o)
    else nthD out (linIdx (sizesOf r) o) md.fill

/-- Modelled from the spec: the sequential per-chunk read — start from an
all-fill-value output buffer and merge the chunks one at a time in the
given fetch order. -/
def readSliceSeq (md : ArrayMetadata) (s : Store) (r : Region)
    (ord : List Coord) : List Nat :=
  ord.foldl (outMergeChunk md s r) (List.replicate (prodL (sizesOf r)) md.fill)

theorem foldl_outMerge_map {md : ArrayMetadata} {s : Store} {r : Region}
    (ord : List Coord) (g : List Nat → Nat) :
    ord.foldl (outMergeChunk md s r) ((allIdx (sizesOf r)).map g)
      = (allIdx (sizesOf r)).map fun o =>
          if chunkOf md.chunkShape (addOffset r o) ∈ ord
          then readElem md s (addOffset r o) else g o := by
  induction ord generalizing g with
  | nil =>
    rw [List.foldl_nil]
    apply (List.map_congr_left ?_).symm
    intro o _
    rw [if_neg (List.not_mem_nil _)]
  | cons c t ih =>
    rw [List.foldl_cons]
    have hstep : outMergeChunk md s r ((allIdx (sizesOf r)).map g) c
        = (allIdx (sizesOf r)).map fun o =>
            if chunkOf md.chunkShape (addOffset r o) = c
            then readElem md s (addOffset r o) else g o := by
      rw [outMergeChunk]
      apply List.map_congr_left
      intro o ho
      by_cases hc : chunkOf md.chunkShape (addOffset r o) = c
      · rw [if_pos hc, if_pos hc]
      · rw [if_neg hc, if_neg hc, nthD_map_allIdx _ _ (mem_allIdx_valid ho)]
    rw [hstep, ih]
    apply List.map_congr_left
    intro o _
    by_cases ht : chunkOf md.chunkShape (addOffset r o) ∈ t
    · rw [if_pos ht, if_pos (List.mem_cons_of_mem _ ht)]
    · rw [if_neg ht]
      by_cases hc : chunkOf md.chunkShape (addOffset r o) = c
      · rw [if_pos hc, if_pos (List.mem_cons.mpr (Or.inl hc))]
      · rw [if_neg hc, if_neg (by rw [List.mem_cons]; push_neg; exact ⟨hc, ht⟩)]

/-- The sequential read depends on the fetch order only through the set of
fetched chunks: it equals the pointwise description over that set. -/
theorem readSliceSeq_spec (md : ArrayMetadata) (s : Store) (r : Region)
    (ord : List Coord) :
    readSliceSeq md s r ord
      = (allIdx (sizesOf r)).map fun o =>
          if chunkOf md.chunkShape (addOffset r o) ∈ ord
          then readElem md s (addOffset r o) else md.fill := by
  rw [readSliceSeq]
  have hrep : List.replicate (prodL (sizesOf r)) md.fill
      = (allIdx (sizesOf r)).map fun _ => md.fill := by
    rw [List.map_const', length_allIdx]
  rw [hrep, foldl_outMerge_map]

theorem readSliceSeq_congr {md : ArrayMetadata} {s s2 : Store} {r : Region}
    (ord : List Coord) (h : ∀ k, s k = s2 k) :
    readSliceSeq md s r ord = readSliceSeq md s2 r ord := by
  rw [readSliceSeq_spec, readSliceSeq_spec]
  apply List.map_congr_left
  intro o _
  have hre : readElem md s (addOffset r o) = readElem md s2 (addOffset r o) := by
    simp only [readElem, chunkView, Store.get, h]
  rw [hre]

/-- C10: the program is deterministic and independent of the order in which
chunks are fetched, decoded or written: a sequential read returns the same
buffer for any two orders that are permutations of each other; and for the
example program, any run — any write interleaving, any fetch order over the
4 chunks — reads all zeros before the write and exactly 0..15 row-major
after it, so any two runs produce identical buffers. -/
theorem program_deterministic :
    (∀ (md : ArrayMetadata) (s : Store) (r : Region) (ord1 ord2 : List Coord),
        ord1.Perm ord2 → readSliceSeq md s r ord1 = readSliceSeq md s r ord2)
    ∧ (∀ wOrd rOrd : List Coord,
        wOrd.Perm (chunksOf mdEx.chunkShape fullRegion) →
        rOrd.Perm (chunksOf mdEx.chunkShape fullRegion) →
        readSliceSeq mdEx emptyStore fullRegion rOrd = List.replicate 16 0
        ∧ readSliceSeq mdEx
            (exec mdEx [(fullRegion, data16)] emptyStore (wOrd.map fun c => (0, c)))
            fullRegion rOrd
          = [0, 1, 2, 3, 4, 5, 6, 7, 8, 9, 10, 11, 12, 13, 14, 15]) := by
  constructor
  · intro md s r ord1 ord2 hp
    rw [readSliceSeq_spec, readSliceSeq_spec]
    apply List.map_congr_left
    intro o _
    by_cases h : chunkOf md.chunkShape (addOffset r o) ∈ ord1
    · rw [if_pos h, if_pos (hp.mem_iff.mp h)]
    · rw [if_neg h, if_neg (fun hc => h (hp.mem_iff.mpr hc))]
  · intro wOrd rOrd hw hr
    have hmemchunk : ∀ o ∈ allIdx (sizesOf fullRegion),
        chunkOf mdEx.chunkShape (addOffset fullRegion o)
          ∈ chunksOf mdEx.chunkShape fullRegion := by
      intro o ho
      exact chunkOf_mem_chunksOf (addOffset_inRegion (mem_allIdx_valid ho)) rfl (by decide)
    constructor
    · rw [readSliceSeq_spec]
      have hpt : ∀ b ∈ (allIdx (sizesOf fullRegion)).map fun o =>
          if chunkOf mdEx.chunkShape (addOffset fullRegion o) ∈ rOrd
          then readElem mdEx emptyStore (addOffset fullRegion o) else mdEx.fill,
          b = 0 := by
        intro b hb
        rw [List.mem_map] at hb
        obtain ⟨o, ho, rfl⟩ := hb
        by_cases h : chunkOf mdEx.chunkShape (addOffset fullRegion o) ∈ rOrd
        · rw [if_pos h]
          simp only [readElem, chunkView_absent mdEx emptyStore _ rfl]
          exact nthD_replicate _ _ _
        · rw [if_neg h]
          rfl
      have hrep := List.eq_replicate_of_mem hpt
      rw [List.length_map, length_allIdx] at hrep
      exact hrep
    · have hndW : ((wOrd.map fun c => ((0 : Nat), c)).map Prod.snd).Nodup := by
        rw [List.map_map]
        have hid : (Prod.snd ∘ fun c : Coord => ((0 : Nat), c)) = id := rfl
        rw [hid, List.map_id]
        exact (hw.nodup_iff).mpr (by decide)
      have hvalW : ∀ p ∈ wOrd.map fun c => ((0 : Nat), c),
          p.2 ∈ callChunks mdEx [(fullRegion, data16)] p.1 := by
        intro p hp
        rw [List.mem_map] at hp
        obtain ⟨c, hc, rfl⟩ := hp
        exact hw.mem_iff.mp hc
      have hcov := exec_cover (wOrd.map fun c => ((0 : Nat), c)) emptyStore emptyStore
        hvalW hndW (fun _ _ => rfl)
      have hsW : ∀ k, exec mdEx [(fullRegion, data16)] emptyStore
            (wOrd.map fun c => (0, c)) k
          = (fun k2 => if k2 ∈ chunksOf mdEx.chunkShape fullRegion
              then some (encode (chunkNewBuf mdEx emptyStore fullRegion
                (elemSource mdEx fullRegion data16) k2))
              else none) k := by
        intro k
        beta_reduce
        by_cases hk : k ∈ chunksOf mdEx.chunkShape fullRegion
        · rw [if_pos hk]
          exact hcov.1 (0, k) (List.mem_map_of_mem _ (hw.mem_iff.mpr hk))
            fullRegion data16 rfl
        · rw [if_neg hk]
          refine hcov.2 k ?_
          rw [List.map_map]
          have hid : (Prod.snd ∘ fun c : Coord => ((0 : Nat), c)) = id := rfl
          rw [hid, List.map_id]
          intro hmem
          exact hk (hw.mem_iff.mp hmem)
      rw [readSliceSeq_congr rOrd hsW, readSliceSeq_spec]
      have hpt : ∀ o ∈ allIdx (sizesOf fullRegion),
          (if chunkOf mdEx.chunkShape (addOffset fullRegion o) ∈ rOrd
           then readElem mdEx (fun k2 => if k2 ∈ chunksOf mdEx.chunkShape fullRegion
              then some (encode (chunkNewBuf mdEx emptyStore fullRegion
                (elemSource mdEx fullRegion data16) k2))
              else none) (addOffset fullRegion o)
           else mdEx.fill)
          = readElem mdEx (fun k2 => if k2 ∈ chunksOf mdEx.chunkShape fullRegion
              then some (encode (chunkNewBuf mdEx emptyStore fullRegion
                (elemSource mdEx fullRegion data16) k2))
              else none) (addOffset fullRegion o) := by
        intro o ho
        exact if_pos (hr.mem_iff.mpr (hmemchunk o ho))
      rw [List.map_congr_left hpt]
      rfl

theorem program_deterministic_witness :
    readSliceSeq mdEx emptyStore fullRegion [[0, 1], [0, 0], [1, 1], [1, 0]]
      = List.replicate 16 0
    ∧ readSliceSeq mdEx
        (exec mdEx [(fullRegion, data16)] emptyStore
          ([[1, 1], [0, 0], [0, 1], [1, 0]].map fun c => (0, c)))
        fullRegion [[0, 1], [0, 0], [1, 1], [1, 0]]
      = [0, 1, 2, 3, 4, 5, 6, 7, 8, 9, 10, 11, 12, 13, 14, 15] :=
  program_deterministic.2 [[1, 1], [0, 0], [0, 1], [1, 0]]
    [[0, 1], [0, 0], [1, 1], [1, 0]] (by decide) (by decide)

end ZarrModel
